import Mathlib

/-!
Verification of the image-dupes repository (src/imgdupes.py, src/imgdupes2.py)
against its natural-language specification.

The fingerprint engine is embedded from the point where the code holds the
resized grayscale pixel grid: an image is a luminance function
`(col : Nat) → (row : Nat) → Nat` (the grayscale conversion and ANTIALIAS
resize are external collaborators per the spec, out of scope).  All other
functions (`hamming_distance`, `percentage_to_hamming_value`,
`build_hash_table`, the pairwise clustering loops of both variants) are
embedded directly from the source.  Python exceptions are modelled with
`Option` (`none` = the exception propagates out of the computation).
-/

/-- Lowercase hexadecimal digit characters, as produced by Python's `hex`. -/
def hexDigit (n : Nat) : Char :=
  match n with
  | 0 => '0' | 1 => '1' | 2 => '2' | 3 => '3'
  | 4 => '4' | 5 => '5' | 6 => '6' | 7 => '7'
  | 8 => '8' | 9 => '9' | 10 => 'a' | 11 => 'b'
  | 12 => 'c' | 13 => 'd' | 14 => 'e' | _ => 'f'

/-- Fuel-indexed digit expansion of Python's `hex(n)[2:]` (most significant
digit first, lowercase).  The fuel bounds the recursion depth; `pyHexChars`
supplies fuel `n`, which is always sufficient. -/
def pyHexCharsAux : Nat → Nat → List Char
  | 0, n => [hexDigit n]
  | fuel + 1, n =>
    if n < 16 then [hexDigit n]
    else pyHexCharsAux fuel (n / 16) ++ [hexDigit (n % 16)]

/-- `hex(n)[2:]` from the source's byte-rendering step. -/
def pyHexChars (n : Nat) : List Char :=
  pyHexCharsAux n n

/-- `hex(decimal_value)[2:].rjust(2, '0')` from `difference_hash`:
the digit expansion left-padded with `'0'` to at least two characters. -/
def pyByteHex (n : Nat) : String :=
  String.mk (List.replicate (2 - (pyHexChars n).length) '0' ++ pyHexChars n)

/-- The comparison booleans of `difference_hash`: for each `row` then each
`col` in `[0, hash_size)`, `true` iff the pixel at `(col, row)` is strictly
brighter than its right neighbor `(col + 1, row)` (row-major emission). -/
def differenceList (image : Nat → Nat → Nat) (hash_size : Nat) : List Bool :=
  (List.range hash_size).flatMap (fun row =>
    (List.range hash_size).map (fun col =>
      decide (image col row > image (col + 1) row)))

/-- The byte-packing loop of `difference_hash`: walks the boolean list with
the running enumeration `index` and accumulator `decimal_value`, adding
`2 ^ (index % 8)` for each `true`, and flushing a two-character hex byte
whenever `index % 8 == 7`. -/
def packLoop : List Bool → Nat → Nat → List String
  | [], _, _ => []
  | v :: rest, index, dv =>
    if index % 8 = 7 then
      pyByteHex (if v then dv + 2 ^ (index % 8) else dv) :: packLoop rest (index + 1) 0
    else
      packLoop rest (index + 1) (if v then dv + 2 ^ (index % 8) else dv)

/-- `difference_hash(image, hash_size)` from src/imgdupes.py lines 103-133
(identical in src/imgdupes2.py lines 117-147), from the resized grayscale
grid onward.  The callers use the Python default `hash_size = 8`. -/
def difference_hash (image : Nat → Nat → Nat) (hash_size : Nat) : String :=
  String.join (packLoop (differenceList image hash_size) 0 0)

/-- The successive complete chunks of 8 booleans, in emission order; a
trailing incomplete chunk is not a chunk. -/
def fullChunks : List Bool → List (List Bool)
  | a :: b :: c :: d :: e :: f :: g :: h :: rest =>
    [a, b, c, d, e, f, g, h] :: fullChunks rest
  | _ => []

/-- Modelled from the spec: the value of one packed byte, "within a chunk,
bit `i` (0-indexed, least-significant-bit-first within the chunk) is set iff
the `i`-th boolean in that chunk is `true`". -/
def specByteVal (c : List Bool) : Nat :=
  ∑ i ∈ Finset.range 8, if c.getD i false then 2 ^ i else 0

/-- Modelled from the spec: "each byte is rendered as exactly two lowercase
hexadecimal digits (zero-padded)". -/
def specByteHex (n : Nat) : String :=
  String.mk [hexDigit (n / 16), hexDigit (n % 16)]

/-- Modelled from the spec: "group into chunks of 8 in emission order" and
concatenate the rendered bytes in chunk order. -/
def specPack (bits : List Bool) : String :=
  String.join ((fullChunks bits).map (fun c => specByteHex (specByteVal c)))

/-- Modelled from the spec (§4.1 `compute_fingerprint`): the row-major
comparison booleans packed per the spec's packing and rendering words. -/
def compute_fingerprint (image : Nat → Nat → Nat) (hash_size : Nat) : String :=
  specPack (differenceList image hash_size)

/-- Running value of a chunk while packing: the booleans `c` contribute bits
`j, j+1, ...` (used to relate the source's accumulator to the spec's sum). -/
def valFrom (j : Nat) : List Bool → Nat
  | [] => 0
  | b :: t => (if b then 2 ^ j else 0) + valFrom (j + 1) t

/-- `hamming_distance(seq1, seq2)` from src/imgdupes2.py lines 150-154
(identical in src/imgdupes.py lines 136-140): `none` models the raised
`ValueError` for unequal lengths; otherwise the number of positions of the
character-wise `zip` at which the two strings differ. -/
def hamming_distance (seq1 seq2 : String) : Option Nat :=
  if seq1.length ≠ seq2.length then none
  else some ((seq1.data.zip seq2.data).countP (fun p => p.1 != p.2))

/-- The count `hamming_distance` returns on equal-length inputs. -/
def hammingCount (seq1 seq2 : String) : Nat :=
  (seq1.data.zip seq2.data).countP (fun p => p.1 != p.2)

/-- `itertools.combinations(keys, 2)` over the key list of a dict: every
pair of positions `i < j`, in enumeration order. -/
def combinations2 {α : Type} : List α → List (α × α)
  | [] => []
  | x :: xs => xs.map (fun y => (x, y)) ++ combinations2 xs

/-- Indexing `table[key]` for the fingerprint table modelled as an
association list in insertion order (the loops only index existing keys). -/
def lookupSet : List (String × List String) → String → List String
  | [], _ => []
  | (k, s) :: rest, q => if k = q then s else lookupSet rest q

/-- The similar-group loop of `main` in src/imgdupes2.py lines 79-82: for
each enumerated key pair compute the Hamming distance (a raised
`ValueError` aborts the whole run, `none`); skip the pair when the distance
exceeds the threshold, otherwise emit the union of the two keys' file sets.
Set union is modelled as `List.union` on the membership-set reading. -/
def similar_groups : List (String × String) → Nat → List (String × List String) →
    Option (List (List String))
  | [], _, _ => some []
  | (hash1, hash2) :: rest, thr, t =>
    match hamming_distance hash1 hash2 with
    | none => none
    | some d =>
      match similar_groups rest thr t with
      | none => none
      | some gs => some (if thr < d then gs else (lookupSet t hash1 ∪ lookupSet t hash2) :: gs)

/-- `main` of src/imgdupes2.py lines 75-85, from the built table onward:
pairwise clustering over `combinations(image_hashes, 2)`. -/
def main_similar_groups (table : List (String × List String)) (thr : Nat) :
    Option (List (List String)) :=
  similar_groups (combinations2 (table.map Prod.fst)) thr table

/-- Append `v` under key `k` of an insertion-ordered association list,
creating the key at the end when absent (Python
`if k not in d: d[k] = []` followed by `d[k].append(v)`). -/
def assocAppend : List (String × List String) → String → String →
    List (String × List String)
  | [], k, v => [(k, [v])]
  | (k2, vs) :: rest, k, v =>
    if k2 = k then (k2, vs ++ [v]) :: rest else (k2, vs) :: assocAppend rest k v

/-- The `groups_of_similar_hashes` loop of src/imgdupes.py lines 187-193:
fold over the enumerated key pairs, skipping pairs whose distance exceeds
the threshold and otherwise appending `hash_2` under `hash_1`; a raised
`ValueError` (unequal lengths) aborts the run. -/
def groups_of_similar_hashes : List (String × String) → Nat →
    List (String × List String) → Option (List (String × List String))
  | [], _, acc => some acc
  | (hash1, hash2) :: rest, thr, acc =>
    match hamming_distance hash1 hash2 with
    | none => none
    | some d =>
      if thr < d then groups_of_similar_hashes rest thr acc
      else groups_of_similar_hashes rest thr (assocAppend acc hash1 hash2)

/-- Total counterpart of `groups_of_similar_hashes` for equal-length keys. -/
def groupsTotal : List (String × String) → Nat → List (String × List String) →
    List (String × List String)
  | [], _, acc => acc
  | (hash1, hash2) :: rest, thr, acc =>
    if thr < hammingCount hash1 hash2 then groupsTotal rest thr acc
    else groupsTotal rest thr (assocAppend acc hash1 hash2)

/-- The duplicate-images report of src/imgdupes.py lines 200-204: for each
`main_hash` inserted into `groups_of_similar_hashes` (in insertion order),
its file list `image_hashes[main_hash]` is printed to the duplicates file
exactly when it has more than one member. -/
def duplicate_images_report (table : List (String × List String)) (thr : Nat) :
    Option (List (List String)) :=
  (groups_of_similar_hashes (combinations2 (table.map Prod.fst)) thr []).map
    (fun gs => gs.filterMap (fun e =>
      if 1 < (lookupSet table e.1).length then some (lookupSet table e.1) else none))

/-- Python `set.add`: insert a member unless already present. -/
def setAdd (s : List String) (f : String) : List String :=
  if f ∈ s then s else s ++ [f]

/-- One insertion step of `build_hash_table` (src/imgdupes2.py lines 92-94):
`if dhash not in hash_table: hash_table[dhash] = set()` then
`hash_table[dhash].add(filename)`, on the insertion-ordered table. -/
def tableAdd : List (String × List String) → String → String →
    List (String × List String)
  | [], d, f => [(d, [f])]
  | (k, s) :: rest, d, f =>
    if k = d then (k, setAdd s f) :: rest else (k, s) :: tableAdd rest d f

/-- `build_hash_table` of src/imgdupes2.py lines 88-96, consuming the
collaborator-supplied stream of (file identifier, decoded image) pairs;
each image is hashed with the Python-default `hash_size = 8`. -/
def build_hash_table (imgs : List (String × (Nat → Nat → Nat))) :
    List (String × List String) :=
  List.foldl (fun t fi => tableAdd t (difference_hash fi.2 8) fi.1) [] imgs

/-- Number of table keys whose file-identifier set contains `f`. -/
def countKeysContaining (t : List (String × List String)) (f : String) : Nat :=
  t.countP (fun e => decide (f ∈ e.2))

/-- `HASH_SIZE` from src/imgdupes2.py line 73. -/
def HASH_SIZE : Nat := 8

/-- Python 3 built-in `round` on rationals: nearest integer, ties to the
even neighbor (banker's rounding). -/
def pyRound (q : ℚ) : ℤ :=
  if q - ⌊q⌋ < 1 / 2 then ⌊q⌋
  else if 1 / 2 < q - ⌊q⌋ then ⌊q⌋ + 1
  else if ⌊q⌋ % 2 = 0 then ⌊q⌋ else ⌊q⌋ + 1

/-- `percentage_to_hamming_value(percentage)` from src/imgdupes2.py lines
157-163: `round(HASH_SIZE*2 - (percentage / 100 * HASH_SIZE*2))`. -/
def percentage_to_hamming_value (percentage : ℚ) : ℤ :=
  pyRound ((HASH_SIZE : ℚ) * 2 - (percentage / 100 * (HASH_SIZE : ℚ) * 2))

/-- Modelled from the spec: the numeric value of one hexadecimal fingerprint
character (the spec's fingerprints are lowercase hex strings). -/
def hexCharVal (ch : Char) : Nat :=
  match ch with
  | '0' => 0 | '1' => 1 | '2' => 2 | '3' => 3
  | '4' => 4 | '5' => 5 | '6' => 6 | '7' => 7
  | '8' => 8 | '9' => 9 | 'a' => 10 | 'b' => 11
  | 'c' => 12 | 'd' => 13 | 'e' => 14 | 'f' => 15
  | _ => 0

/-- Modelled from the spec: the four bits a hex digit stands for,
least-significant-bit first. -/
def nibbleBits (ch : Char) : List Bool :=
  [decide (hexCharVal ch % 2 = 1), decide (hexCharVal ch / 2 % 2 = 1),
   decide (hexCharVal ch / 4 % 2 = 1), decide (hexCharVal ch / 8 % 2 = 1)]

/-- Modelled from the spec (§3 Distance): "the count of differing bit
positions between two equal-length fingerprints", reading each fingerprint
as the bit sequence its hex digits represent. -/
def specBitDistance (a b : String) : Nat :=
  ((a.data.flatMap nibbleBits).zip (b.data.flatMap nibbleBits)).countP
    (fun p => p.1 != p.2)

/-! ### Packing machinery: the byte loop of `difference_hash` versus the
spec's chunk description. -/

theorem pyHexCharsAux_of_lt (k m : Nat) (h : m < 16) :
    pyHexCharsAux k m = [hexDigit m] := by
  cases k with
  | zero => rfl
  | succ k => simp [pyHexCharsAux, h]

theorem pyHexChars_of_lt (n : Nat) (h : n < 16) : pyHexChars n = [hexDigit n] :=
  pyHexCharsAux_of_lt n n h

theorem pyHexChars_of_byte (n : Nat) (h16 : 16 ≤ n) (h : n < 256) :
    pyHexChars n = [hexDigit (n / 16), hexDigit (n % 16)] := by
  obtain ⟨k, rfl⟩ : ∃ k, n = k + 1 := ⟨n - 1, by omega⟩
  show pyHexCharsAux (k + 1) (k + 1) = _
  rw [pyHexCharsAux, if_neg (by omega), pyHexCharsAux_of_lt _ _ (by omega)]
  rfl

theorem pyByteHex_eq_specByteHex (n : Nat) (h : n < 256) :
    pyByteHex n = specByteHex n := by
  by_cases h16 : n < 16
  · rw [pyByteHex, pyHexChars_of_lt n h16, specByteHex,
      Nat.div_eq_of_lt h16, Nat.mod_eq_of_lt h16]
    rfl
  · rw [pyByteHex, pyHexChars_of_byte n (by omega) h, specByteHex]
    rfl

theorem specByteHex_length (n : Nat) : (specByteHex n).length = 2 := rfl

theorem pyByteHex_length (n : Nat) (h : n < 256) : (pyByteHex n).length = 2 := by
  rw [pyByteHex_eq_specByteHex n h]; rfl

theorem valFrom_add_le (c : List Bool) : ∀ j : Nat,
    valFrom j c + 2 ^ j ≤ 2 ^ (j + c.length) := by
  induction c with
  | nil => intro j; simp [valFrom]
  | cons b t ih =>
    intro j
    have h2 := ih (j + 1)
    have hp : (2 : Nat) ^ (j + 1) = 2 ^ j + 2 ^ j := by rw [Nat.pow_succ]; ring
    have hexp : j + (b :: t).length = (j + 1) + t.length := by
      simp [List.length_cons]; omega
    have hd : 0 < 2 ^ j := Nat.pos_pow_of_pos j (by norm_num)
    rw [hexp, valFrom]
    split <;> omega

theorem valFrom_lt_256 (c : List Bool) (h : c.length = 8) : valFrom 0 c < 256 := by
  have := valFrom_add_le c 0
  rw [h] at this
  norm_num at this
  omega

theorem valFrom_eq_sum (c : List Bool) : ∀ j : Nat,
    valFrom j c = ∑ i ∈ Finset.range c.length, if c.getD i false then 2 ^ (j + i) else 0 := by
  induction c with
  | nil => intro j; simp [valFrom]
  | cons b t ih =>
    intro j
    have hsum : (∑ i ∈ Finset.range t.length, if t.getD i false then 2 ^ (j + 1 + i) else 0) =
        ∑ i ∈ Finset.range t.length, if t.getD i false then 2 ^ (j + (i + 1)) else 0 := by
      apply Finset.sum_congr rfl
      intro i _
      rw [show j + 1 + i = j + (i + 1) by omega]
    simp only [valFrom, ih (j + 1), List.length_cons, Finset.sum_range_succ',
      List.getD_cons_succ, List.getD_cons_zero, Nat.add_zero, hsum]
    exact Nat.add_comm _ _

theorem specByteVal_eq_valFrom (c : List Bool) (h : c.length = 8) :
    specByteVal c = valFrom 0 c := by
  rw [specByteVal, valFrom_eq_sum, h]
  apply Finset.sum_congr rfl
  intro i _
  simp

theorem packLoop_mod (bits : List Bool) : ∀ i dv : Nat,
    packLoop bits i dv = packLoop bits (i % 8) dv := by
  induction bits with
  | nil => intro i dv; rfl
  | cons v rest ih =>
    intro i dv
    rw [packLoop, packLoop]
    have h1 : i % 8 % 8 = i % 8 := by omega
    rw [h1]
    by_cases h : i % 8 = 7
    · rw [if_pos h, if_pos h, ih (i + 1), ih (i % 8 + 1)]
      have : (i + 1) % 8 = (i % 8 + 1) % 8 := by omega
      rw [this]
    · rw [if_neg h, if_neg h, ih (i + 1), ih (i % 8 + 1)]
      have : (i + 1) % 8 = (i % 8 + 1) % 8 := by omega
      rw [this]

theorem packLoop_small (c : List Bool) : ∀ j dv : Nat, j + c.length < 8 →
    packLoop c j dv = [] := by
  induction c with
  | nil => intro j dv _; rfl
  | cons v t ih =>
    intro j dv h
    simp only [List.length_cons] at h
    rw [packLoop, if_neg (by omega)]
    exact ih (j + 1) _ (by omega)

theorem packLoop_chunk (c : List Bool) (rest : List Bool) : ∀ j dv : Nat,
    c ≠ [] → j + c.length = 8 →
    packLoop (c ++ rest) j dv = pyByteHex (dv + valFrom j c) :: packLoop rest 0 0 := by
  induction c with
  | nil => intro j dv hne _; exact absurd rfl hne
  | cons b t ih =>
    intro j dv _ hlen
    simp only [List.length_cons] at hlen
    cases t with
    | nil =>
      have hj : j = 7 := by simp at hlen; omega
      subst hj
      rw [List.cons_append, List.nil_append, packLoop, if_pos (by norm_num),
        packLoop_mod rest 8 0]
      norm_num
      congr 1
      cases b <;> simp [valFrom]
    | cons b2 t2 =>
      have hj : j < 7 := by simp [List.length_cons] at hlen; omega
      have hjm : j % 8 = j := by omega
      rw [List.cons_append, packLoop, if_neg (by omega)]
      rw [ih _ _ (by simp) (by simp [List.length_cons] at hlen ⊢; omega)]
      congr 2
      conv_rhs => rw [valFrom]
      rw [hjm]
      cases b <;> simp [Nat.add_assoc]

theorem fullChunks_cons8 (a b c d e f g x : Bool) (rest : List Bool) :
    fullChunks (a :: b :: c :: d :: e :: f :: g :: x :: rest) =
      [a, b, c, d, e, f, g, x] :: fullChunks rest := rfl

theorem packLoop_eq_chunks : ∀ bits : List Bool,
    packLoop bits 0 0 = (fullChunks bits).map (fun c => pyByteHex (valFrom 0 c))
  | [] => rfl
  | [_] => rfl
  | [_, _] => rfl
  | [_, _, _] => rfl
  | [_, _, _, _] => rfl
  | [_, _, _, _, _] => rfl
  | [_, _, _, _, _, _] => rfl
  | [_, _, _, _, _, _, _] => rfl
  | a :: b :: c :: d :: e :: f :: g :: x :: rest => by
    have hrec := packLoop_eq_chunks rest
    calc packLoop (a :: b :: c :: d :: e :: f :: g :: x :: rest) 0 0
        = packLoop ([a, b, c, d, e, f, g, x] ++ rest) 0 0 := rfl
      _ = pyByteHex (0 + valFrom 0 [a, b, c, d, e, f, g, x]) :: packLoop rest 0 0 :=
          packLoop_chunk _ _ 0 0 (by simp) rfl
      _ = (fullChunks (a :: b :: c :: d :: e :: f :: g :: x :: rest)).map
            (fun c => pyByteHex (valFrom 0 c)) := by
          rw [fullChunks_cons8, List.map_cons, hrec, Nat.zero_add]

theorem fullChunks_mem_length : ∀ bits : List Bool, ∀ c ∈ fullChunks bits, c.length = 8
  | [], c, hc => by simp [fullChunks] at hc
  | [_], c, hc => by simp [fullChunks] at hc
  | [_, _], c, hc => by simp [fullChunks] at hc
  | [_, _, _], c, hc => by simp [fullChunks] at hc
  | [_, _, _, _], c, hc => by simp [fullChunks] at hc
  | [_, _, _, _, _], c, hc => by simp [fullChunks] at hc
  | [_, _, _, _, _, _], c, hc => by simp [fullChunks] at hc
  | [_, _, _, _, _, _, _], c, hc => by simp [fullChunks] at hc
  | a :: b :: c' :: d :: e :: f :: g :: x :: rest, c, hc => by
    rw [fullChunks_cons8, List.mem_cons] at hc
    rcases hc with hc | hc
    · subst hc; rfl
    · exact fullChunks_mem_length rest c hc

theorem fullChunks_count : ∀ bits : List Bool,
    (fullChunks bits).length = bits.length / 8
  | [] => rfl
  | [_] => by norm_num [fullChunks]
  | [_, _] => by norm_num [fullChunks]
  | [_, _, _] => by norm_num [fullChunks]
  | [_, _, _, _] => by norm_num [fullChunks]
  | [_, _, _, _, _] => by norm_num [fullChunks]
  | [_, _, _, _, _, _] => by norm_num [fullChunks]
  | [_, _, _, _, _, _, _] => by norm_num [fullChunks]
  | a :: b :: c :: d :: e :: f :: g :: x :: rest => by
    have hrec := fullChunks_count rest
    rw [fullChunks_cons8, List.length_cons, hrec]
    simp only [List.length_cons]
    omega

theorem foldl_append_length (l : List String) : ∀ s : String,
    (List.foldl (fun r t => r ++ t) s l).length = s.length + (l.map String.length).sum := by
  induction l with
  | nil => intro s; simp
  | cons a t ih =>
    intro s
    rw [List.foldl_cons, ih, List.map_cons, List.sum_cons, String.length_append]
    omega

theorem join_length (l : List String) :
    (String.join l).length = (l.map String.length).sum := by
  rw [String.join, foldl_append_length]
  simp

theorem sum_map_const_two {α : Type} (l : List α) (f : α → Nat)
    (h : ∀ a ∈ l, f a = 2) : (l.map f).sum = 2 * l.length := by
  induction l with
  | nil => rfl
  | cons a t ih =>
    rw [List.map_cons, List.sum_cons, h a (by simp), List.length_cons,
      ih (fun a ha => h a (by simp [ha]))]
    omega

theorem flatMap_uniform_length {α β : Type} (l : List α) (f : α → List β) (m : Nat)
    (hm : ∀ a ∈ l, (f a).length = m) : (l.flatMap f).length = l.length * m := by
  induction l with
  | nil => simp
  | cons a t ih =>
    rw [List.flatMap_cons, List.length_append, hm a (by simp), List.length_cons,
      ih (fun a ha => hm a (by simp [ha]))]
    ring

theorem flatMap_uniform_getElem {α β : Type} (l : List α) (f : α → List β) (m : Nat)
    (hm : ∀ a ∈ l, (f a).length = m) : ∀ r : Nat, ∀ c : Nat, ∀ hr : r < l.length, c < m →
    (l.flatMap f)[r * m + c]? = (f (l.get ⟨r, hr⟩))[c]? := by
  induction l with
  | nil => intro r c hr _; exact absurd hr (by simp)
  | cons a t ih =>
    intro r c hr hc
    cases r with
    | zero =>
      have h0 : 0 * m + c = c := by omega
      rw [List.flatMap_cons, h0, List.getElem?_append]
      rw [if_pos (by rw [hm a (by simp)]; exact hc)]
      rfl
    | succ r =>
      have hm_a : (f a).length = m := hm a (by simp)
      have hidx : (r + 1) * m + c = (f a).length + (r * m + c) := by rw [hm_a]; ring
      rw [List.flatMap_cons, hidx, List.getElem?_append_right (by omega),
        Nat.add_sub_cancel_left]
      exact ih (fun a ha => hm a (by simp [ha])) r c (by simpa using hr) hc

theorem differenceList_length (image : Nat → Nat → Nat) (h : Nat) :
    (differenceList image h).length = h * h := by
  rw [differenceList, flatMap_uniform_length _ _ h (by simp)]
  simp

theorem difference_hash_eq_specPack (image : Nat → Nat → Nat) (h : Nat) :
    difference_hash image h = specPack (differenceList image h) := by
  rw [difference_hash, specPack, packLoop_eq_chunks]
  congr 1
  apply List.map_congr_left
  intro c hc
  have h8 : c.length = 8 := fullChunks_mem_length _ c hc
  rw [specByteVal_eq_valFrom c h8,
    pyByteHex_eq_specByteHex _ (valFrom_lt_256 c h8)]

theorem difference_hash_length (image : Nat → Nat → Nat) (h : Nat) :
    (difference_hash image h).length = 2 * (h * h / 8) := by
  rw [difference_hash, join_length]
  rw [packLoop_eq_chunks, List.map_map]
  rw [sum_map_const_two _ _ (fun c hc => by
    have h8 : c.length = 8 := fullChunks_mem_length _ c hc
    exact pyByteHex_length _ (valFrom_lt_256 c h8))]
  rw [fullChunks_count, differenceList_length]

/-- Claim C1: for every decoded image and hash_size `h` a positive multiple
of 8, `difference_hash` emits exactly `h * h` comparison booleans in
row-major order (the boolean at index `row * h + col` compares pixel
`(col, row)` with `(col + 1, row)`, `true` iff the left luminance is
strictly greater), and the returned string equals the spec-described
packing: chunks of 8 in emission order, bit `i` least-significant-first,
each byte as two lowercase zero-padded hex digits in chunk order. -/
theorem claim_C1 (image : Nat → Nat → Nat) (h : Nat) (hpos : 0 < h) (hdvd : 8 ∣ h) :
    (differenceList image h).length = h * h
    ∧ (∀ row col : Nat, row < h → col < h →
        (differenceList image h)[row * h + col]? =
          some (decide (image col row > image (col + 1) row)))
    ∧ difference_hash image h = compute_fingerprint image h := by
  refine ⟨differenceList_length image h, ?_, difference_hash_eq_specPack image h⟩
  intro row col hrow hcol
  have hr : row < (List.range h).length := by simpa using hrow
  rw [differenceList, flatMap_uniform_getElem _ _ h (by simp) row col hr hcol]
  have : (List.range h).get ⟨row, hr⟩ = row := by simp
  rw [this, List.getElem?_map, List.getElem?_range hcol]
  rfl

theorem claim_C1_witness :
    0 < 8 ∧ (8 : Nat) ∣ 8 ∧
      difference_hash (fun c r => (c * 7 + r * 3) % 5) 8 =
        compute_fingerprint (fun c r => (c * 7 + r * 3) % 5) 8 :=
  ⟨by decide, by decide,
    (claim_C1 (fun c r => (c * 7 + r * 3) % 5) 8 (by decide) (by decide)).2.2⟩

/-- Claim C4 counterexample: `hash_size = 3` is not a positive multiple of
8, yet `difference_hash` does not fail in any way — the source contains no
validation and no `InvalidConfiguration` error — and returns the
fingerprint `"00"` for a constant image rather than rejecting the
configuration. -/
theorem claim_C4_counterexample :
    ¬ (0 < 3 ∧ (8 : Nat) ∣ 3) ∧ difference_hash (fun _ _ => 0) 3 = "00" :=
  ⟨by decide, by decide⟩

/-- Claim C4 (amended): `difference_hash` performs no `hash_size`
validation.  For every `hash_size` that is not a positive multiple of 8 it
still returns a fingerprint: the string packing only the complete chunks of
8 comparison booleans — `2 * (h*h / 8)` hex characters — silently dropping
the trailing `h*h mod 8` booleans (the flush fires only at `index % 8 == 7`). -/
theorem claim_C4_amended (image : Nat → Nat → Nat) (h : Nat)
    (hinv : ¬ (0 < h ∧ 8 ∣ h)) :
    difference_hash image h = specPack (differenceList image h)
    ∧ (difference_hash image h).length = 2 * (h * h / 8)
    ∧ (differenceList image h).length = h * h :=
  ⟨difference_hash_eq_specPack image h, difference_hash_length image h,
    differenceList_length image h⟩

theorem claim_C4_witness :
    ¬ (0 < 3 ∧ (8 : Nat) ∣ 3) ∧ (difference_hash (fun _ _ => 0) 3).length = 2 * (3 * 3 / 8) :=
  ⟨by decide, (claim_C4_amended (fun _ _ => 0) 3 (by decide)).2.1⟩

/-- Claim C5 counterexample: at the default `hash_size = 8` (a positive
multiple of 8) the fingerprint of a constant image has 16 hexadecimal
characters, not `8 / 4 = 2`. -/
theorem claim_C5_counterexample :
    0 < 8 ∧ (8 : Nat) ∣ 8 ∧ (difference_hash (fun _ _ => 0) 8).length = 16
      ∧ (16 : Nat) ≠ 8 / 4 := by
  decide

/-- Claim C5 (amended): for every image and every `hash_size` `h` a positive
multiple of 8, the fingerprint string has exactly `h * h / 4` hexadecimal
characters (two hex characters per 8 of the `h * h` comparison bits), not
`h / 4`. -/
theorem claim_C5_amended (image : Nat → Nat → Nat) (h : Nat)
    (hpos : 0 < h) (hdvd : 8 ∣ h) :
    (difference_hash image h).length = h * h / 4 := by
  obtain ⟨k, rfl⟩ := hdvd
  rw [difference_hash_length]
  have e1 : 8 * k * (8 * k) / 8 = 8 * (k * k) := by
    rw [show 8 * k * (8 * k) = 8 * (8 * (k * k)) by ring]
    exact Nat.mul_div_cancel_left _ (by norm_num)
  have e2 : 8 * k * (8 * k) / 4 = 16 * (k * k) := by
    rw [show 8 * k * (8 * k) = 4 * (16 * (k * k)) by ring]
    exact Nat.mul_div_cancel_left _ (by norm_num)
  rw [e1, e2]
  ring

theorem claim_C5_witness :
    0 < 8 ∧ (8 : Nat) ∣ 8 ∧
      (difference_hash (fun c r => (c * 7 + r * 3) % 5) 8).length = 8 * 8 / 4 :=
  ⟨by decide, by decide,
    claim_C5_amended (fun c r => (c * 7 + r * 3) % 5) 8 (by decide) (by decide)⟩

/-! ### Hamming distance: error behavior and what is counted. -/

theorem hamming_eq_some (a b : String) (h : a.length = b.length) :
    hamming_distance a b = some (hammingCount a b) := by
  rw [hamming_distance, if_neg (by simp [h])]
  rfl

/-- Claim C8: `hamming_distance` fails (raises `ValueError`, modelled as
`none`) exactly when the two inputs have different lengths, and returns
normally (a `some` value, neither truncating nor padding) on equal-length
inputs. -/
theorem claim_C8 (a b : String) :
    (hamming_distance a b = none ↔ a.length ≠ b.length)
    ∧ (a.length = b.length → ∃ d, hamming_distance a b = some d) := by
  constructor
  · rw [hamming_distance]
    split_ifs with h
    · simp [h]
    · simp [h]
  · intro h
    exact ⟨_, hamming_eq_some a b h⟩

theorem claim_C8_witness :
    "ab".length ≠ "abc".length ∧ hamming_distance "ab" "abc" = none :=
  ⟨by decide, (claim_C8 "ab" "abc").1.mpr (by decide)⟩

theorem countZip_eq_range : ∀ l1 l2 : List Char, l1.length = l2.length →
    (l1.zip l2).countP (fun p => p.1 != p.2) =
      (List.range l1.length).countP (fun i => l1.getD i ' ' != l2.getD i ' ') := by
  intro l1
  induction l1 with
  | nil => intro l2 _; simp
  | cons a t ih =>
    intro l2 h
    cases l2 with
    | nil => simp at h
    | cons b t2 =>
      simp only [List.length_cons] at h
      simp only [List.zip_cons_cons, List.countP_cons, List.length_cons,
        List.range_succ_eq_map, List.countP_map, Function.comp,
        List.getD_cons_succ, List.getD_cons_zero]
      rw [ih t2 (by omega)]
      have hfun : ((fun i => (a :: t).getD i ' ' != (b :: t2).getD i ' ') ∘ Nat.succ) =
          (fun i => t.getD i ' ' != t2.getD i ' ') := by
        funext i
        simp [Function.comp, List.getD_cons_succ]
      rw [hfun]

/-- Claim C2 counterexample: the two fingerprints `"00"*8` and `"ff"*8`
(both produced by `difference_hash` at the same `hash_size = 8`, from a
constant image and a strictly left-to-right-darkening image) differ in all
64 bits of the bit sequences they represent, yet `hamming_distance` returns
16 — it counts differing hex characters, not differing bits. -/
theorem claim_C2_counterexample :
    difference_hash (fun _ _ => 0) 8 = "0000000000000000"
    ∧ difference_hash (fun c _ => 10 - c) 8 = "ffffffffffffffff"
    ∧ hamming_distance (difference_hash (fun _ _ => 0) 8)
        (difference_hash (fun c _ => 10 - c) 8) = some 16
    ∧ specBitDistance (difference_hash (fun _ _ => 0) 8)
        (difference_hash (fun c _ => 10 - c) 8) = 64
    ∧ (16 : Nat) ≠ 64 := by
  decide

/-- Claim C2 (amended): for two fingerprints produced with the same
`hash_size`, `hamming_distance` returns the count of differing *character*
positions of the two hexadecimal strings (index-wise over their common
length), which in general differs from — and is at most — the count of
differing bit positions. -/
theorem claim_C2_amended (a b : String) (h : a.length = b.length) :
    hamming_distance a b =
      some ((List.range a.length).countP
        (fun i => a.data.getD i ' ' != b.data.getD i ' ')) := by
  rw [hamming_eq_some a b h]
  exact congrArg some (countZip_eq_range a.data b.data h)

theorem claim_C2_witness :
    "0f".length = "0a".length ∧
      hamming_distance "0f" "0a" =
        some ((List.range "0f".length).countP
          (fun i => "0f".data.getD i ' ' != "0a".data.getD i ' ')) :=
  ⟨by decide, claim_C2_amended "0f" "0a" (by decide)⟩

/-! ### Pair enumeration and the pairwise clustering pass. -/

theorem combinations2_mem_parts {α : Type} : ∀ (l : List α) (a b : α),
    (a, b) ∈ combinations2 l → a ∈ l ∧ b ∈ l := by
  intro l
  induction l with
  | nil => intro a b h; simp [combinations2] at h
  | cons x t ih =>
    intro a b h
    rw [combinations2] at h
    rcases List.mem_append.mp h with h | h
    · obtain ⟨y, hy, heq⟩ := List.mem_map.mp h
      cases heq
      simp [hy]
    · have := ih a b h
      simp [this.1, this.2]

theorem combinations2_ne {α : Type} : ∀ l : List α, l.Nodup → ∀ a b : α,
    (a, b) ∈ combinations2 l → a ≠ b := by
  intro l
  induction l with
  | nil => intro _ a b h; simp [combinations2] at h
  | cons x t ih =>
    intro hnd a b h
    obtain ⟨hx, hnd2⟩ := List.nodup_cons.mp hnd
    rw [combinations2] at h
    rcases List.mem_append.mp h with h | h
    · obtain ⟨y, hy, heq⟩ := List.mem_map.mp h
      cases heq
      intro heq2
      exact hx (heq2 ▸ hy)
    · exact ih hnd2 a b h

theorem count_pair_map {α : Type} [DecidableEq α] (t : List α) (x a b : α) :
    (t.map (fun y => (x, y))).count (a, b) = if x = a then t.count b else 0 := by
  induction t with
  | nil => simp
  | cons y t ih =>
    simp only [List.map_cons, List.count_cons, ih]
    by_cases hxa : x = a
    · subst hxa
      by_cases hyb : y = b
      · subst hyb; simp
      · simp [hyb, Prod.ext_iff]
    · simp [hxa, Prod.ext_iff]

theorem combinations2_count {α : Type} [DecidableEq α] : ∀ l : List α, l.Nodup →
    ∀ a b : α, a ≠ b → a ∈ l → b ∈ l →
    (combinations2 l).count (a, b) + (combinations2 l).count (b, a) = 1 := by
  intro l
  induction l with
  | nil => intro _ a b _ ha _; exact absurd ha (by simp)
  | cons x t ih =>
    intro hnd a b hne ha hb
    obtain ⟨hx, hnd2⟩ := List.nodup_cons.mp hnd
    have habsent1 : ∀ u v : α, u ∉ t → (combinations2 t).count (u, v) = 0 := by
      intro u v hu
      apply List.count_eq_zero_of_not_mem
      intro hmem
      exact hu (combinations2_mem_parts t u v hmem).1
    have habsent2 : ∀ u v : α, v ∉ t → (combinations2 t).count (u, v) = 0 := by
      intro u v hv
      apply List.count_eq_zero_of_not_mem
      intro hmem
      exact hv (combinations2_mem_parts t u v hmem).2
    rw [combinations2, List.count_append, List.count_append,
      count_pair_map, count_pair_map]
    by_cases hxa : x = a
    · subst hxa
      have hbt : b ∈ t := by
        rcases List.mem_cons.mp hb with h | h
        · exact absurd h.symm hne
        · exact h
      rw [if_pos rfl, if_neg hne,
        List.count_eq_one_of_mem hnd2 hbt, habsent1 x b hx, habsent2 b x hx]
    · by_cases hxb : x = b
      · subst hxb
        have hat : a ∈ t := by
          rcases List.mem_cons.mp ha with h | h
          · exact absurd h hne
          · exact h
        rw [if_neg hxa, if_pos rfl, List.count_eq_one_of_mem hnd2 hat,
          habsent2 a x hx, habsent1 x a hx]
      · have hat : a ∈ t := by
          rcases List.mem_cons.mp ha with h | h
          · exact absurd h.symm hxa
          · exact h
        have hbt : b ∈ t := by
          rcases List.mem_cons.mp hb with h | h
          · exact absurd h.symm hxb
          · exact h
        rw [if_neg hxa, if_neg hxb]
        have := ih hnd2 a b hne hat hbt
        omega

theorem similar_groups_eq (t : List (String × List String)) (thr : Nat) :
    ∀ pairs : List (String × String), (∀ p ∈ pairs, p.1.length = p.2.length) →
    similar_groups pairs thr t =
      some ((pairs.filter (fun p => hammingCount p.1 p.2 ≤ thr)).map
        (fun p => lookupSet t p.1 ∪ lookupSet t p.2)) := by
  intro pairs
  induction pairs with
  | nil => intro _; rfl
  | cons p rest ih =>
    intro hp
    obtain ⟨h1, h2⟩ := p
    rw [similar_groups, hamming_eq_some h1 h2 (hp (h1, h2) (by simp)),
      ih (fun q hq => hp q (by simp [hq]))]
    by_cases hc : hammingCount h1 h2 ≤ thr
    · simp [List.filter_cons, hc, Nat.not_lt.mpr hc]
    · simp [List.filter_cons, hc, Nat.lt_of_not_le hc]

/-- Claim C6: for every table and threshold (with distinct, equal-length
fingerprint keys), the clustering pass of the second variant enumerates
each unordered pair of distinct keys exactly once (each `{a, b}` appears
exactly once across the two orientations, and never as a self-pair), and
returns exactly one group — the union of the two keys' file-identifier
sets — for each enumerated pair whose Hamming distance is at most the
threshold, with no transitive closure (so an identifier recurs in every
group of every qualifying pair its key participates in). -/
theorem claim_C6 (table : List (String × List String)) (thr : Nat)
    (hnd : (table.map Prod.fst).Nodup)
    (hlen : ∀ a ∈ table.map Prod.fst, ∀ b ∈ table.map Prod.fst,
      a.length = b.length) :
    (∀ a ∈ table.map Prod.fst, ∀ b ∈ table.map Prod.fst, a ≠ b →
      (combinations2 (table.map Prod.fst)).count (a, b)
        + (combinations2 (table.map Prod.fst)).count (b, a) = 1)
    ∧ (∀ a : String, (a, a) ∉ combinations2 (table.map Prod.fst))
    ∧ main_similar_groups table thr =
        some (((combinations2 (table.map Prod.fst)).filter
            (fun p => hammingCount p.1 p.2 ≤ thr)).map
          (fun p => lookupSet table p.1 ∪ lookupSet table p.2)) := by
  refine ⟨?_, ?_, ?_⟩
  · intro a ha b hb hne
    exact combinations2_count _ hnd a b hne ha hb
  · intro a ha
    exact combinations2_ne _ hnd a a ha rfl
  · rw [main_similar_groups]
    apply similar_groups_eq
    intro p hp
    have := combinations2_mem_parts _ p.1 p.2 (by simpa using hp)
    exact hlen _ this.1 _ this.2

theorem claim_C6_witness :
    (([("aa", ["f1"]), ("ab", ["f2"])] : List (String × List String)).map
      Prod.fst).Nodup
    ∧ (combinations2 (([("aa", ["f1"]), ("ab", ["f2"])] :
          List (String × List String)).map Prod.fst)).count ("aa", "ab")
        + (combinations2 (([("aa", ["f1"]), ("ab", ["f2"])] :
          List (String × List String)).map Prod.fst)).count ("ab", "aa") = 1 :=
  ⟨by decide,
    (claim_C6 [("aa", ["f1"]), ("ab", ["f2"])] 1 (by decide) (by decide)).1
      "aa" (by decide) "ab" (by decide) (by decide)⟩

/-! ### Percentage-to-threshold conversion. -/

theorem pyRound_ge_floor (q : ℚ) : ⌊q⌋ ≤ pyRound q := by
  rw [pyRound]; split_ifs <;> omega

theorem pyRound_le_floor_add_one (q : ℚ) : pyRound q ≤ ⌊q⌋ + 1 := by
  rw [pyRound]; split_ifs <;> omega

theorem pyRound_mono {x y : ℚ} (h : x ≤ y) : pyRound x ≤ pyRound y := by
  have hf : ⌊x⌋ ≤ ⌊y⌋ := Int.floor_le_floor h
  rcases lt_or_eq_of_le hf with hlt | heq
  · have h1 := pyRound_le_floor_add_one x
    have h2 := pyRound_ge_floor y
    omega
  · have hr : x - (⌊x⌋ : ℚ) ≤ y - (⌊y⌋ : ℚ) := by
      rw [← heq]
      have : ((⌊x⌋ : ℚ)) ≤ ((⌊x⌋ : ℚ)) := le_refl _
      linarith
    rw [pyRound, pyRound, ← heq]
    rw [← heq] at hr
    split_ifs <;> first | omega | linarith

theorem pyRound_intCast (n : ℤ) : pyRound ((n : ℚ)) = n := by
  rw [pyRound, Int.floor_intCast, sub_self, if_pos (by norm_num)]

theorem percentage100 : percentage_to_hamming_value 100 = 0 := by
  have h : ((HASH_SIZE : Nat) : ℚ) * 2 - (100 / 100 * (HASH_SIZE : ℚ) * 2) =
      ((0 : ℤ) : ℚ) := by
    norm_num [HASH_SIZE]
  rw [percentage_to_hamming_value, h, pyRound_intCast]

theorem percentage0 : percentage_to_hamming_value 0 = 16 := by
  have h : ((HASH_SIZE : Nat) : ℚ) * 2 - (0 / 100 * (HASH_SIZE : ℚ) * 2) =
      ((16 : ℤ) : ℚ) := by
    norm_num [HASH_SIZE]
  rw [percentage_to_hamming_value, h, pyRound_intCast]

/-- Claim C7: with `HASH_SIZE = 8`, `percentage_to_hamming_value(p)` is
`round(2*hash_size - (p/100 * 2*hash_size))` under Python's `round`
(nearest, ties to even); it maps 100 to 0 and 0 to 16; and it is
monotonically non-increasing in the percentage over `[0, 100]`. -/
theorem claim_C7 :
    (∀ p : ℚ, percentage_to_hamming_value p = pyRound (2 * 8 - p / 100 * (2 * 8)))
    ∧ percentage_to_hamming_value 100 = 0
    ∧ percentage_to_hamming_value 0 = 16
    ∧ ∀ p q : ℚ, 0 ≤ p → p ≤ q → q ≤ 100 →
        percentage_to_hamming_value q ≤ percentage_to_hamming_value p := by
  refine ⟨?_, percentage100, percentage0, ?_⟩
  · intro p
    rw [percentage_to_hamming_value]
    congr 1
    norm_num [HASH_SIZE]
    ring
  · intro p q _ hpq _
    rw [percentage_to_hamming_value, percentage_to_hamming_value]
    apply pyRound_mono
    have h8 : ((HASH_SIZE : Nat) : ℚ) = 8 := by norm_num [HASH_SIZE]
    rw [h8]
    linarith

theorem claim_C7_witness :
    percentage_to_hamming_value 100 = 0
    ∧ (0 : ℚ) ≤ 25 ∧ (25 : ℚ) ≤ 75 ∧ (75 : ℚ) ≤ 100
    ∧ percentage_to_hamming_value 75 ≤ percentage_to_hamming_value 25 :=
  ⟨claim_C7.2.1, by decide, by decide, by decide,
    claim_C7.2.2.2 25 75 (by decide) (by decide) (by decide)⟩

/-! ### Distance zero means equal, and the zero-threshold clustering. -/

theorem zip_self_mem {α : Type} : ∀ (l : List α) (p : α × α), p ∈ l.zip l → p.1 = p.2 := by
  intro l
  induction l with
  | nil => intro p h; simp at h
  | cons x t ih =>
    intro p h
    rw [List.zip_cons_cons, List.mem_cons] at h
    rcases h with h | h
    · subst h; rfl
    · exact ih p h

theorem zip_forall_eq : ∀ l1 l2 : List Char, l1.length = l2.length →
    (∀ p ∈ l1.zip l2, p.1 = p.2) → l1 = l2 := by
  intro l1
  induction l1 with
  | nil =>
    intro l2 h _
    cases l2 with
    | nil => rfl
    | cons b t2 => simp at h
  | cons a t ih =>
    intro l2 h hall
    cases l2 with
    | nil => simp at h
    | cons b t2 =>
      simp only [List.length_cons] at h
      have hab : a = b := hall (a, b) (by rw [List.zip_cons_cons]; simp)
      have ht : t = t2 := ih t2 (by omega) (fun p hp =>
        hall p (by rw [List.zip_cons_cons]; simp [hp]))
      rw [hab, ht]

theorem hammingCount_eq_zero_iff (a b : String) (h : a.length = b.length) :
    hammingCount a b = 0 ↔ a = b := by
  rw [hammingCount, List.countP_eq_zero]
  constructor
  · intro hall
    have hdata : a.data = b.data :=
      zip_forall_eq a.data b.data h (fun p hp => by simpa using hall p hp)
    cases a; cases b
    exact congrArg String.mk hdata
  · rintro rfl
    intro p hp
    have := zip_self_mem a.data p hp
    simp [this]

/-- Claim C10: on equal-length inputs `hamming_distance` is zero exactly on
equal strings; consequently with threshold 0 — the value
`percentage_to_hamming_value 100` used by the second variant's `main` —
the pairwise clustering over the distinct (equal-length) fingerprint keys
of any table emits no similar groups at all. -/
theorem claim_C10 :
    (∀ a b : String, a.length = b.length →
      (hamming_distance a b = some 0 ↔ a = b))
    ∧ percentage_to_hamming_value 100 = 0
    ∧ ∀ table : List (String × List String),
        (table.map Prod.fst).Nodup →
        (∀ a ∈ table.map Prod.fst, ∀ b ∈ table.map Prod.fst,
          a.length = b.length) →
        main_similar_groups table 0 = some [] := by
  refine ⟨?_, percentage100, ?_⟩
  · intro a b h
    rw [hamming_eq_some a b h]
    rw [Option.some_inj]
    exact hammingCount_eq_zero_iff a b h
  · intro table hnd hlen
    rw [main_similar_groups, similar_groups_eq table 0 _ (fun p hp => by
      have := combinations2_mem_parts _ p.1 p.2 (by simpa using hp)
      exact hlen _ this.1 _ this.2)]
    have hfil : (combinations2 (table.map Prod.fst)).filter
        (fun p => hammingCount p.1 p.2 ≤ 0) = [] := by
      rw [List.filter_eq_nil_iff]
      intro p hp
      have hmem : (p.1, p.2) ∈ combinations2 (table.map Prod.fst) := by
        simpa using hp
      have hne := combinations2_ne _ hnd p.1 p.2 hmem
      have hparts := combinations2_mem_parts _ p.1 p.2 hmem
      have hlen12 : p.1.length = p.2.length := hlen _ hparts.1 _ hparts.2
      simp only [decide_eq_true_eq, Nat.le_zero]
      rw [hammingCount_eq_zero_iff _ _ hlen12]
      exact hne
    rw [hfil]
    rfl

theorem claim_C10_witness :
    ("ab".length = "ab".length)
    ∧ (hamming_distance "ab" "ab" = some 0 ↔ "ab" = "ab")
    ∧ (([("aa", ["f1"]), ("ab", ["f2"])] :
        List (String × List String)).map Prod.fst).Nodup
    ∧ main_similar_groups [("aa", ["f1"]), ("ab", ["f2"])] 0 = some [] :=
  ⟨rfl, claim_C10.1 "ab" "ab" rfl, by decide,
    claim_C10.2.2 [("aa", ["f1"]), ("ab", ["f2"])] (by decide) (by decide)⟩

/-! ### The first variant's report loop: which duplicate groups get printed. -/

/-- Claim C3 counterexample: a fingerprint key (`"aa"`) whose file set has
two members is NOT reported as an exact-duplicate group when it has no
similar partner within the threshold (a table with that single key, or
threshold 0, reports nothing), while raising the threshold to 1 makes the
very same table report it — so the reporting is neither unconditional nor
threshold-independent. -/
theorem claim_C3_counterexample :
    1 < (lookupSet [("aa", ["f1", "f2"])] "aa").length
    ∧ duplicate_images_report [("aa", ["f1", "f2"])] 0 = some []
    ∧ duplicate_images_report [("aa", ["f1", "f2"]), ("ab", ["f3"])] 0 = some []
    ∧ duplicate_images_report [("aa", ["f1", "f2"]), ("ab", ["f3"])] 1 =
        some [["f1", "f2"]] := by
  decide

theorem groups_eq_total (thr : Nat) : ∀ pairs : List (String × String),
    ∀ acc : List (String × List String),
    (∀ p ∈ pairs, p.1.length = p.2.length) →
    groups_of_similar_hashes pairs thr acc = some (groupsTotal pairs thr acc) := by
  intro pairs
  induction pairs with
  | nil => intro acc _; rfl
  | cons p rest ih =>
    intro acc hp
    obtain ⟨h1, h2⟩ := p
    simp only [groups_of_similar_hashes, groupsTotal,
      hamming_eq_some h1 h2 (hp (h1, h2) (by simp))]
    by_cases hc : thr < hammingCount h1 h2
    · rw [if_pos hc, if_pos hc]
      exact ih acc (fun q hq => hp q (by simp [hq]))
    · rw [if_neg hc, if_neg hc]
      exact ih _ (fun q hq => hp q (by simp [hq]))

theorem assocAppend_keys_mem : ∀ (acc : List (String × List String)) (k v k2 : String),
    k2 ∈ (assocAppend acc k v).map Prod.fst ↔ k2 ∈ acc.map Prod.fst ∨ k2 = k := by
  intro acc
  induction acc with
  | nil => intro k v k2; simp [assocAppend]
  | cons e rest ih =>
    intro k v k2
    obtain ⟨k3, vs⟩ := e
    rw [assocAppend]
    by_cases hk : k3 = k
    · subst hk
      rw [if_pos rfl]
      simp only [List.map_cons, List.mem_cons]
      tauto
    · rw [if_neg hk]
      simp only [List.map_cons, List.mem_cons, ih]
      tauto

theorem groupsTotal_keys (thr : Nat) : ∀ pairs : List (String × String),
    ∀ (acc : List (String × List String)) (k : String),
    k ∈ (groupsTotal pairs thr acc).map Prod.fst ↔
      k ∈ acc.map Prod.fst
        ∨ ∃ p ∈ pairs, p.1 = k ∧ hammingCount p.1 p.2 ≤ thr := by
  intro pairs
  induction pairs with
  | nil => intro acc k; simp [groupsTotal]
  | cons p rest ih =>
    intro acc k
    obtain ⟨h1, h2⟩ := p
    rw [groupsTotal]
    by_cases hc : thr < hammingCount h1 h2
    · rw [if_pos hc, ih]
      have hnot : ¬ ((h1, h2).1 = k ∧ hammingCount (h1, h2).1 (h1, h2).2 ≤ thr) := by
        intro hand
        have hand2 : hammingCount h1 h2 ≤ thr := hand.2
        omega
      simp only [List.mem_cons]
      constructor
      · rintro (h | ⟨q, hq, hqk⟩)
        · exact Or.inl h
        · exact Or.inr ⟨q, Or.inr hq, hqk⟩
      · rintro (h | ⟨q, hq | hq, hqk⟩)
        · exact Or.inl h
        · exact absurd (hq ▸ hqk) hnot
        · exact Or.inr ⟨q, hq, hqk⟩
    · rw [if_neg hc, ih, assocAppend_keys_mem]
      have hle : hammingCount h1 h2 ≤ thr := Nat.le_of_not_lt hc
      simp only [List.mem_cons]
      constructor
      · rintro ((h | h) | ⟨q, hq, hqk⟩)
        · exact Or.inl h
        · exact Or.inr ⟨(h1, h2), Or.inl rfl, h.symm, hle⟩
        · exact Or.inr ⟨q, Or.inr hq, hqk⟩
      · rintro (h | ⟨q, hq | hq, hqk, hqd⟩)
        · exact Or.inl (Or.inl h)
        · exact Or.inl (Or.inr (by rw [hq] at hqk; exact hqk.symm))
        · exact Or.inr ⟨q, hq, hqk, hqd⟩

/-- Claim C3 (amended): in the first variant, for every table (with
equal-length keys) and threshold, a group `g` appears in the
duplicate-images report exactly when some fingerprint key `k` has file list
`g` with more than one member AND `k` occurs as the first element of at
least one enumerated pair whose Hamming distance is within the threshold.
Reporting therefore depends on the threshold; a many-member key with no
near neighbor later in the enumeration is not reported. -/
theorem claim_C3_amended (table : List (String × List String)) (thr : Nat)
    (hlen : ∀ a ∈ table.map Prod.fst, ∀ b ∈ table.map Prod.fst,
      a.length = b.length) :
    ∃ res, duplicate_images_report table thr = some res
    ∧ ∀ g, g ∈ res ↔
        ∃ k ∈ table.map Prod.fst, lookupSet table k = g ∧ 1 < g.length
          ∧ ∃ p ∈ combinations2 (table.map Prod.fst),
              p.1 = k ∧ hammingCount p.1 p.2 ≤ thr := by
  have hpl : ∀ p ∈ combinations2 (table.map Prod.fst), p.1.length = p.2.length := by
    intro p hp
    have := combinations2_mem_parts _ p.1 p.2 (by simpa using hp)
    exact hlen _ this.1 _ this.2
  refine ⟨_, by rw [duplicate_images_report, groups_eq_total thr _ [] hpl]; rfl, ?_⟩
  intro g
  constructor
  · intro hg
    obtain ⟨e, he, hif⟩ := List.mem_filterMap.mp hg
    by_cases h1 : 1 < (lookupSet table e.1).length
    · rw [if_pos h1] at hif
      have hgl : lookupSet table e.1 = g := by simpa using hif
      have hk : e.1 ∈ (groupsTotal (combinations2 (table.map Prod.fst)) thr []).map
          Prod.fst := List.mem_map.mpr ⟨e, he, rfl⟩
      rcases (groupsTotal_keys thr _ [] e.1).mp hk with h | ⟨p, hp, hpk, hpd⟩
      · simp at h
      · have hk_table : e.1 ∈ table.map Prod.fst := by
          have := combinations2_mem_parts _ p.1 p.2 (by simpa using hp)
          exact hpk ▸ this.1
        exact ⟨e.1, hk_table, hgl, hgl ▸ h1, p, hp, hpk, hpd⟩
    · rw [if_neg h1] at hif
      exact absurd hif (by simp)
  · rintro ⟨k, hk_table, hlg, hgl, p, hp, hpk, hpd⟩
    have hkeys : k ∈ (groupsTotal (combinations2 (table.map Prod.fst)) thr []).map
        Prod.fst := (groupsTotal_keys thr _ [] k).mpr (Or.inr ⟨p, hp, hpk, hpd⟩)
    obtain ⟨e, he, hek⟩ := List.mem_map.mp hkeys
    apply List.mem_filterMap.mpr
    refine ⟨e, he, ?_⟩
    rw [hek, hlg, if_pos hgl]

theorem claim_C3_witness :
    (∀ a ∈ (([("aa", ["f1", "f2"]), ("ab", ["f3"])] :
        List (String × List String)).map Prod.fst),
      ∀ b ∈ (([("aa", ["f1", "f2"]), ("ab", ["f3"])] :
        List (String × List String)).map Prod.fst), a.length = b.length)
    ∧ ∃ res, duplicate_images_report [("aa", ["f1", "f2"]), ("ab", ["f3"])] 1 = some res
      ∧ ∀ g, g ∈ res ↔
          ∃ k ∈ (([("aa", ["f1", "f2"]), ("ab", ["f3"])] :
              List (String × List String)).map Prod.fst),
            lookupSet [("aa", ["f1", "f2"]), ("ab", ["f3"])] k = g ∧ 1 < g.length
            ∧ ∃ p ∈ combinations2 (([("aa", ["f1", "f2"]), ("ab", ["f3"])] :
                List (String × List String)).map Prod.fst),
                p.1 = k ∧ hammingCount p.1 p.2 ≤ 1 :=
  ⟨by decide, claim_C3_amended [("aa", ["f1", "f2"]), ("ab", ["f3"])] 1 (by decide)⟩

/-! ### The fingerprint table build and its one-key-per-file invariant. -/

theorem setAdd_mem (s : List String) (f g : String) :
    g ∈ setAdd s f ↔ g ∈ s ∨ g = f := by
  rw [setAdd]
  split_ifs with h
  · constructor
    · exact Or.inl
    · rintro (hg | rfl)
      · exact hg
      · exact h
  · simp

theorem countKeysContaining_tableAdd_ne : ∀ (t : List (String × List String))
    (d f g : String), g ≠ f →
    countKeysContaining (tableAdd t d f) g = countKeysContaining t g := by
  intro t
  induction t with
  | nil =>
    intro d f g hg
    simp [tableAdd, countKeysContaining, hg]
  | cons e rest ih =>
    intro d f g hg
    obtain ⟨k, s⟩ := e
    rw [tableAdd]
    by_cases hk : k = d
    · rw [if_pos hk]
      simp only [countKeysContaining, List.countP_cons]
      have hmem : (g ∈ setAdd s f) = (g ∈ s) := by
        rw [eq_iff_iff, setAdd_mem]
        constructor
        · rintro (h | rfl)
          · exact h
          · exact absurd rfl hg
        · exact Or.inl
      simp [hmem]
    · rw [if_neg hk]
      simp only [countKeysContaining, List.countP_cons]
      have := ih d f g hg
      simp only [countKeysContaining] at this
      omega

theorem countKeysContaining_zero (t : List (String × List String)) (f : String)
    (h : ∀ e ∈ t, f ∉ e.2) : countKeysContaining t f = 0 := by
  rw [countKeysContaining, List.countP_eq_zero]
  intro e he
  simp [h e he]

theorem countKeysContaining_tableAdd_self : ∀ (t : List (String × List String))
    (d f : String), (∀ e ∈ t, f ∉ e.2) →
    countKeysContaining (tableAdd t d f) f = 1 := by
  intro t
  induction t with
  | nil =>
    intro d f _
    simp [tableAdd, countKeysContaining]
  | cons e rest ih =>
    intro d f h
    obtain ⟨k, s⟩ := e
    have hs : f ∉ s := h (k, s) (by simp)
    have hrest : ∀ e ∈ rest, f ∉ e.2 := fun e he => h e (by simp [he])
    rw [tableAdd]
    by_cases hk : k = d
    · rw [if_pos hk]
      simp only [countKeysContaining, List.countP_cons]
      have h1 : f ∈ setAdd s f := (setAdd_mem s f f).mpr (Or.inr rfl)
      have h0 : countKeysContaining rest f = 0 := countKeysContaining_zero rest f hrest
      simp only [countKeysContaining] at h0
      simp [h1, h0]
    · rw [if_neg hk]
      simp only [countKeysContaining, List.countP_cons]
      have := ih d f hrest
      simp only [countKeysContaining] at this
      simp [hs, this]

theorem tableAdd_sets_subset : ∀ (t : List (String × List String)) (d f g : String),
    (∃ e ∈ tableAdd t d f, g ∈ e.2) → g = f ∨ ∃ e ∈ t, g ∈ e.2 := by
  intro t
  induction t with
  | nil =>
    intro d f g ⟨e, he, hg⟩
    simp [tableAdd] at he
    subst he
    simp at hg
    exact Or.inl hg
  | cons e0 rest ih =>
    intro d f g hex
    obtain ⟨k, s⟩ := e0
    obtain ⟨e, he, hg⟩ := hex
    rw [tableAdd] at he
    by_cases hk : k = d
    · rw [if_pos hk] at he
      rcases List.mem_cons.mp he with rfl | he2
      · rcases (setAdd_mem s f g).mp hg with h | h
        · exact Or.inr ⟨(k, s), by simp, h⟩
        · exact Or.inl h
      · exact Or.inr ⟨e, by simp [he2], hg⟩
    · rw [if_neg hk] at he
      rcases List.mem_cons.mp he with rfl | he2
      · exact Or.inr ⟨(k, s), by simp, hg⟩
      · rcases ih d f g ⟨e, he2, hg⟩ with h | ⟨e2, he3, hg2⟩
        · exact Or.inl h
        · exact Or.inr ⟨e2, by simp [he3], hg2⟩

theorem build_fold_count : ∀ (imgs : List (String × (Nat → Nat → Nat)))
    (t : List (String × List String)),
    (imgs.map Prod.fst).Nodup →
    (∀ f ∈ imgs.map Prod.fst, ∀ e ∈ t, f ∉ e.2) →
    ∀ g : String,
    countKeysContaining
        (List.foldl (fun t2 fi => tableAdd t2 (difference_hash fi.2 8) fi.1) t imgs) g
      = countKeysContaining t g + (if g ∈ imgs.map Prod.fst then 1 else 0) := by
  intro imgs
  induction imgs with
  | nil => intro t _ _ g; simp
  | cons fi rest ih =>
    obtain ⟨f0, img⟩ := fi
    intro t hnd ht g
    rw [List.map_cons] at hnd
    obtain ⟨hf0, hnd2⟩ := List.nodup_cons.mp hnd
    rw [List.foldl_cons]
    have ht' : ∀ f ∈ rest.map Prod.fst,
        ∀ e ∈ tableAdd t (difference_hash img 8) f0, f ∉ e.2 := by
      intro f hf e he hfe
      have hne : f ≠ f0 := fun h => hf0 (h ▸ hf)
      rcases tableAdd_sets_subset t (difference_hash img 8) f0 f ⟨e, he, hfe⟩ with
        h | ⟨e2, he2, hfe2⟩
      · exact hne h
      · exact ht f (by simp [hf]) e2 he2 hfe2
    rw [ih (tableAdd t (difference_hash img 8) f0) hnd2 ht' g]
    by_cases hg : g = f0
    · subst hg
      have h1 : countKeysContaining (tableAdd t (difference_hash img 8) g) g = 1 :=
        countKeysContaining_tableAdd_self t _ g (ht g (by simp))
      have h0 : countKeysContaining t g = 0 :=
        countKeysContaining_zero t g (ht g (by simp))
      rw [h1, h0]
      simp [hf0]
    · have h2 : countKeysContaining (tableAdd t (difference_hash img 8) f0) g =
          countKeysContaining t g :=
        countKeysContaining_tableAdd_ne t _ f0 g hg
      rw [h2]
      have hiff : (g ∈ ((f0, img) :: rest).map Prod.fst) ↔ (g ∈ rest.map Prod.fst) := by
        simp [List.map_cons, List.mem_cons, hg]
      rw [if_congr hiff rfl rfl]

/-- Claim C9: for every input stream of (file identifier, image) pairs with
distinct identifiers, after every insertion step of `build_hash_table`
(i.e., for the table built from every prefix of the stream) each processed
file identifier lies in the file-identifier set of exactly one fingerprint
key. -/
theorem claim_C9 (imgs : List (String × (Nat → Nat → Nat)))
    (hnd : (imgs.map Prod.fst).Nodup) :
    ∀ n : Nat, ∀ f ∈ (imgs.take n).map Prod.fst,
      countKeysContaining (build_hash_table (imgs.take n)) f = 1 := by
  intro n f hf
  have hnd2 : ((imgs.take n).map Prod.fst).Nodup := by
    rw [List.map_take]
    exact (List.take_sublist n _).nodup hnd
  rw [build_hash_table,
    build_fold_count (imgs.take n) [] hnd2 (by intro f2 _ e he; simp at he) f]
  rw [List.map_take] at hf
  simp [countKeysContaining, hf]

theorem claim_C9_witness :
    (([("a", fun _ _ => 0), ("b", fun _ _ => 0)] :
      List (String × (Nat → Nat → Nat))).map Prod.fst).Nodup
    ∧ countKeysContaining
        (build_hash_table (([("a", fun _ _ => 0), ("b", fun _ _ => 0)] :
          List (String × (Nat → Nat → Nat))).take 2)) "a" = 1 :=
  ⟨by decide, claim_C9 _ (by decide) 2 "a" (by decide)⟩
